import Mathlib

/-!
Verification of the core of a Scrabble-style move solver (a Rust crate) via a
shallow embedding in Lean.  Rust `u8` letter bytes are modelled as `Nat`
(every value produced by the code is < 256), `u32`/`usize` arithmetic is
modelled on `Nat` (the embedded expressions never wrap on the inputs the
program can construct), and fallible operations return `Option`.
-/

namespace Scrabble

/-- BOARD_SIZE constant from `lib.rs`. -/
def boardSize : Nat := 15

/-- Maximum value of a Rust `usize` (64-bit). -/
def usizeMax : Nat := 2 ^ 64 - 1

/-- Direction enum from `lib.rs`. -/
inductive Direction where
  | vertical
  | horizontal
deriving DecidableEq, Repr

/-- Direction::perp from `lib.rs`. -/
def Direction.perp : Direction → Direction
  | .vertical => .horizontal
  | .horizontal => .vertical

/-- Position struct from `lib.rs`. -/
structure Position where
  row : Nat
  col : Nat
deriving DecidableEq, Repr

/-- Index<Direction> for Position: the coordinate that changes in that direction. -/
def Position.coord (p : Position) (d : Direction) : Nat :=
  match d with
  | .vertical => p.row
  | .horizontal => p.col

/-- IndexMut<Direction> for Position: replace the coordinate that changes in that direction. -/
def Position.setCoord (p : Position) (d : Direction) (v : Nat) : Position :=
  match d with
  | .vertical => { p with row := v }
  | .horizontal => { p with col := v }

/-- Placement tuple struct from `lib.rs`. -/
structure Placement where
  pos : Position
  dir : Direction
deriving DecidableEq, Repr

/-- Placement::next from `lib.rs`: saturating_add 1 on the moving coordinate. -/
def Placement.next (p : Placement) : Placement :=
  ⟨p.pos.setCoord p.dir (min (p.pos.coord p.dir + 1) usizeMax), p.dir⟩

/-- Placement::back from `lib.rs`: wrapping_sub 1 on the moving coordinate
(the wrap only matters at 0, where the coordinate becomes usize::MAX). -/
def Placement.back (p : Placement) : Placement :=
  ⟨p.pos.setCoord p.dir (if p.pos.coord p.dir = 0 then usizeMax else p.pos.coord p.dir - 1), p.dir⟩

/-- Placement::perp from `lib.rs`. -/
def Placement.perp (p : Placement) : Placement :=
  ⟨p.pos, p.dir.perp⟩

/-- LetterTile enum from `lib.rs`; the Letter(u8) newtype is flattened to a Nat byte. -/
inductive LetterTile where
  | wildcard
  | letter (l : Nat)
deriving DecidableEq, Repr

/-- Square enum from `lib.rs`. -/
inductive Square where
  | empty
  | filled (tile : LetterTile)
deriving DecidableEq, Repr

/-- Square::tile from `lib.rs`. -/
def Square.tile : Square → Option LetterTile
  | .filled t => some t
  | .empty => none

/-- Table struct from `lib.rs`: a grid stored as nested vectors. -/
structure Table (α : Type) where
  squares : List (List α)

/-- Table::get from `lib.rs`. -/
def Table.get {α : Type} (t : Table α) (pos : Position) : Option α :=
  (t.squares.get? pos.row).bind fun r => r.get? pos.col

/-- Table::fill_with from `lib.rs` (15 × 15 grid of one element). -/
def Table.fillWith {α : Type} (el : α) : Table α :=
  ⟨List.replicate boardSize (List.replicate boardSize el)⟩

/-- Move enum from `lib.rs`.  In MultiLetters the Nat of each pair counts the
board-filled squares skipped before that tile. -/
inductive Move where
  | singleLetter (pos : Position) (tile : LetterTile)
  | multiLetters (place : Placement) (first : LetterTile) (others : List (Nat × LetterTile))
deriving DecidableEq, Repr

/-! ### score_rules.rs -/

/-- Bonus struct from `score_rules.rs`. -/
structure Bonus where
  letter : Nat
  word : Nat
deriving DecidableEq, Repr

/-- u32::MAX, the sentinel bonus value. -/
def u32Max : Nat := 4294967295

/-- fold_half helper inside ScrabbleBonus::bonus_at. -/
def fold_half (a : Nat) : Nat :=
  if a ≥ 7 then a - 7 else 7 - a

namespace ScrabbleBonus

/-- ScrabbleBonus::bonus_at from `score_rules.rs`, including its defensive
out-of-board check (which uses a strict comparison with BOARD_SIZE). -/
def bonus_at (position : Position) : Bonus :=
  if position.row > boardSize ∨ position.col > boardSize then
    ⟨u32Max, u32Max⟩
  else
    let row := fold_half position.row
    let col := fold_half position.col
    if (row = 7 ∧ col = 0) ∨ (row = 0 ∧ col = 7) ∨ (row = 7 ∧ col = 7) then
      ⟨1, 3⟩
    else if (row = 1 ∧ col = 1) ∨ (row = 4 ∧ col = 0) ∨ (row = 0 ∧ col = 4)
        ∨ (row = 5 ∧ col = 1) ∨ (row = 1 ∧ col = 5) ∨ (row = 7 ∧ col = 4) ∨ (row = 4 ∧ col = 7) then
      ⟨2, 1⟩
    else if (row = 2 ∧ col = 2) ∨ (row = 6 ∧ col = 2) ∨ (row = 2 ∧ col = 6) then
      ⟨3, 1⟩
    else if row = col then
      ⟨1, 2⟩
    else
      ⟨1, 1⟩

end ScrabbleBonus

namespace EnglishScrabbleScoring

/-- EnglishScrabbleScoring::score_for from `score_rules.rs`
(unrecognized letters score 0). -/
def score_for (tile : LetterTile) : Nat :=
  match tile with
  | .wildcard => 0
  | .letter l =>
    if l = 97 then 1 else if l = 98 then 3 else if l = 99 then 4 else if l = 100 then 2
    else if l = 101 then 1 else if l = 102 then 4 else if l = 103 then 2 else if l = 104 then 4
    else if l = 105 then 1 else if l = 106 then 8 else if l = 107 then 5 else if l = 108 then 1
    else if l = 109 then 3 else if l = 110 then 1 else if l = 111 then 1 else if l = 112 then 3
    else if l = 113 then 10 else if l = 114 then 1 else if l = 115 then 1 else if l = 116 then 1
    else if l = 117 then 1 else if l = 118 then 4 else if l = 119 then 4 else if l = 120 then 8
    else if l = 121 then 4 else if l = 122 then 10 else 0

end EnglishScrabbleScoring

/-! ### solver/letter_set.rs -/

/-- LetterSet from `letter_set.rs`: a 256-bit bitmap (two u128 limbs in the
source) stored here as one Nat whose bit i is set when letter byte i is in
the set.  Equality is bitwise, as in the source. -/
structure LetterSet where
  accepted : Nat
deriving DecidableEq, Repr

namespace LetterSet

/-- LetterSet::empty. -/
def empty : LetterSet := ⟨0⟩

/-- LetterSet::any: every one of the 256 bits set. -/
def any : LetterSet := ⟨2 ^ 256 - 1⟩

/-- LetterSet::contains. -/
def contains (s : LetterSet) (letter : Nat) : Bool :=
  s.accepted.testBit letter

/-- LetterSet::insert. -/
def insert (s : LetterSet) (letter : Nat) : LetterSet :=
  ⟨s.accepted ||| (1 <<< letter)⟩

/-- LetterSet::is_empty: all limbs zero. -/
def is_empty (s : LetterSet) : Bool :=
  s.accepted = 0

/-- LetterSet::is_any: all limbs all-ones. -/
def is_any (s : LetterSet) : Bool :=
  s.accepted = 2 ^ 256 - 1

/-- LetterSet::ALPHABET: the constant built by setting the bits of bytes
97 (a) through 122 (z). -/
def ALPHABET : LetterSet :=
  ⟨(List.range' 97 26).foldl (fun acc i => acc ||| (1 <<< i)) 0⟩

end LetterSet

/-- RestrictedSquare enum from `solver.rs`. -/
inductive RestrictedSquare where
  | empty (set : LetterSet)
  | filled (tile : LetterTile)
deriving DecidableEq, Repr

/-! ### solver/restrictionner.rs -/

/-- RestrictionCheckerState from `restrictionner.rs`; the Prefix and Suffix
constructors are abbreviated pfxS and sfxS. -/
inductive RCState where
  | pfxS (i : Nat)
  | mid
  | sfxS (i : Nat) (l : Nat)
  | done (l : Nat)
deriving DecidableEq, Repr

/-- RestrictionChecker::start: Mid when the prefix run is empty, else
matching the prefix from index 0. -/
def rcStart (pfx : List LetterTile) : RCState :=
  if pfx.length = 0 then .mid else .pfxS 0

/-- RestrictionChecker::accept.  The source indexes prefix[i] directly; a
pfxS state always satisfies i < pfx.length, so the none arm of get? is
unreachable. -/
def rcAccept (pfx sfx : List LetterTile) (state : Option RCState) (byte : Nat) : Option RCState :=
  state.bind fun s =>
    match s with
    | .pfxS i =>
      match pfx.get? i with
      | none => none
      | some t =>
        let ok := match t with
          | .wildcard => true
          | .letter l => decide (l = byte)
        if ok then
          some (if i + 1 = pfx.length then .mid else .pfxS (i + 1))
        else
          none
    | .mid =>
      some (if sfx.length = 0 then .done byte else .sfxS 0 byte)
    | .sfxS i l =>
      let ok := match sfx.get? i with
        | none => false
        | some .wildcard => true
        | some (.letter l2) => decide (l2 = byte)
      if ok then
        some (if i + 1 = sfx.length then .done l else .sfxS (i + 1) l)
      else
        none
    | .done _ => none

/-- Run of the RestrictionChecker automaton over one word of the lexicon. -/
def rcRun (pfx sfx : List LetterTile) (w : List Nat) : Option RCState :=
  w.foldl (rcAccept pfx sfx) (some (rcStart pfx))

/-- Prefix collection loop of find_restrictions: walk indices i-1, i-2, …
of the line while they hold tiles, prepending each tile, so the result is in
board order. -/
def pfxAt (line : List Square) : Nat → List LetterTile
  | 0 => []
  | j + 1 =>
    match line.get? j with
    | some (.filled t) => pfxAt line j ++ [t]
    | _ => []

/-- Suffix collection loop of find_restrictions: tiles of the contiguous
filled run at the head of the given slice. -/
def collectRun : List Square → List LetterTile
  | .filled t :: rest => t :: collectRun rest
  | _ => []

/-- Suffix of an empty square: the contiguous filled run just after index i. -/
def sfxAt (line : List Square) (i : Nat) : List LetterTile :=
  collectRun (line.drop (i + 1))

/-- Letter set collected by streaming the lexicon through the
RestrictionChecker: every word whose run ends in Done(l) contributes l. -/
def restrictionSet (dict : List (List Nat)) (pfx sfx : List LetterTile) : LetterSet :=
  dict.foldl
    (fun acc w =>
      match rcRun pfx sfx w with
      | some (.done l) => acc.insert l
      | _ => acc)
    LetterSet.empty

/-- find_restrictions from `restrictionner.rs`, as the list of restricted
squares for one line (the out-parameter of the source).  The none arm of
get? is unreachable because i ranges over the line's indices. -/
def find_restrictions (line : List Square) (dict : List (List Nat)) : List RestrictedSquare :=
  (List.range line.length).map fun i =>
    match line.get? i with
    | some (.filled t) => .filled t
    | some .empty =>
      let pfx := pfxAt line i
      let sfx := sfxAt line i
      .empty (if pfx.isEmpty ∧ sfx.isEmpty then LetterSet.any else restrictionSet dict pfx sfx)
    | none => .empty LetterSet.empty

/-! ### solver/word_finder.rs -/

/-- TrayRemaining from `word_finder.rs`: the [u8; 256] letter-count array is
modelled as a count function on byte values, with the separate wildcard count
and the cached total. -/
structure TrayRemaining where
  letters : Nat → Nat
  n_wildcards : Nat
  n_total : Nat

/-- TrayRemaining::new: the cached total sums the 256 array entries plus the
wildcard count. -/
def TrayRemaining.new (letters : Nat → Nat) (n_wildcards : Nat) : TrayRemaining :=
  ⟨letters, n_wildcards, ((List.range 256).map letters).sum + n_wildcards⟩

/-- TrayRemaining::remove. -/
def TrayRemaining.remove (t : TrayRemaining) (letter : Nat) : Option TrayRemaining :=
  if t.letters letter > 0 then
    some ⟨fun x => if x = letter then t.letters letter - 1 else t.letters x,
          t.n_wildcards, t.n_total - 1⟩
  else
    none

/-- TrayRemaining::remove_wildcard. -/
def TrayRemaining.remove_wildcard (t : TrayRemaining) : Option TrayRemaining :=
  if t.n_wildcards > 0 then
    some ⟨t.letters, t.n_wildcards - 1, t.n_total - 1⟩
  else
    none

/-- WildcardAssignment from `word_finder.rs`. -/
inductive WildcardAssignment where
  | intersection (i : Nat)
  | missingLetter (l : Nat)
deriving DecidableEq, Repr

/-- WildcardAssignmentList from `word_finder.rs` (persistent cons list). -/
inductive WildcardAssignmentList where
  | empty
  | elem (a : WildcardAssignment) (rest : WildcardAssignmentList)
deriving DecidableEq, Repr

/-- View of a WildcardAssignmentList as a plain list. -/
def WildcardAssignmentList.toList : WildcardAssignmentList → List WildcardAssignment
  | .empty => []
  | .elem a rest => a :: rest.toList

/-- ScrabbleAutomata from `word_finder.rs`. -/
structure ScrabbleAutomata where
  line : List RestrictedSquare
  tray : TrayRemaining
  min_len : Nat
  wildcards_have_multi_meaning : Bool

/-- ScrabbleAutomataState from `word_finder.rs`. -/
structure ScrabbleAutomataState where
  position : Nat
  wildcards : WildcardAssignmentList
  tray : TrayRemaining

/-- Automaton::start for ScrabbleAutomata. -/
def ScrabbleAutomata.start (a : ScrabbleAutomata) : Option ScrabbleAutomataState :=
  some ⟨0, .empty, a.tray⟩

/-- Automaton::is_match for ScrabbleAutomata. -/
def ScrabbleAutomata.is_match (a : ScrabbleAutomata) (state : Option ScrabbleAutomataState) :
    Bool :=
  match state with
  | none => false
  | some s =>
    match a.line.get? s.position with
    | some (.filled _) => false
    | _ =>
      if a.tray.n_total = s.tray.n_total then false
      else if s.position < a.min_len then false
      else true

/-- Automaton::accept for ScrabbleAutomata. -/
def ScrabbleAutomata.accept (a : ScrabbleAutomata) (state : Option ScrabbleAutomataState)
    (byte : Nat) : Option ScrabbleAutomataState :=
  state.bind fun s =>
    match a.line.get? s.position with
    | none => none
    | some (.filled .wildcard) =>
      some ⟨s.position + 1, s.wildcards, s.tray⟩
    | some (.filled (.letter l)) =>
      if l = byte then some ⟨s.position + 1, s.wildcards, s.tray⟩ else none
    | some (.empty letter_set) =>
      if letter_set.is_empty then
        none
      else
        let pair : Option TrayRemaining × Option WildcardAssignment :=
          if letter_set.contains byte then
            match s.tray.remove byte with
            | some tray => (some tray, none)
            | none =>
              match s.tray.remove_wildcard with
              | some tray => (some tray, some (.missingLetter byte))
              | none => (none, none)
          else
            if a.wildcards_have_multi_meaning then
              match s.tray.remove_wildcard with
              | some tray => (some tray, some (.intersection s.position))
              | none => (none, none)
            else
              (none, none)
        match pair with
        | (some tray, assignment) =>
          some ⟨s.position + 1,
                match assignment with
                | some assig => .elem assig s.wildcards
                | none => s.wildcards,
                tray⟩
        | (none, _) => none

/-- Fold of ScrabbleAutomata::accept over a byte sequence, as the fst search
drives it. -/
def foldAccept (a : ScrabbleAutomata) (w : List Nat) (st : Option ScrabbleAutomataState) :
    Option ScrabbleAutomataState :=
  w.foldl a.accept st

/-- ScoreRules struct from `score_rules.rs`; the LetterScoring and BoardBonus
trait objects are modelled as function fields. -/
structure ScoreRules where
  scoring : LetterTile → Nat
  bonuses : Position → Bonus
  extra_bonus : Nat

/-- Score rules as constructed by the CLI with all defaults: English Scrabble
letter values, standard premium squares, extra_bonus = 50. -/
def defaultScoreRules : ScoreRules :=
  ⟨EnglishScrabbleScoring.score_for, ScrabbleBonus.bonus_at, 50⟩

/-! ### solver/score.rs

The walking loops of naive_score advance one square per iteration and stop as
soon as Table::get fails or meets an empty square; on the 15-wide board a walk
can inspect at most 16 squares before leaving the grid, so running every loop
on 16 units of fuel is exact. -/

/-- Walk fuel: one more than the board size. -/
def walkFuel : Nat := 16

/-- Backward walking loop of naive_score: step back from the placement,
summing the scores of filled squares, stopping at the first non-filled
lookup.  Also reports whether any filled square was seen (the
has_local_word flag of the MultiLetters arm). -/
def walkBack (scoring : LetterTile → Nat) (t : Table Square) :
    Nat → Placement → Nat × Bool
  | 0, _ => (0, false)
  | fuel + 1, p =>
    let q := p.back
    match t.get q.pos with
    | some (.filled tile) =>
      let r := walkBack scoring t fuel q
      (scoring tile + r.1, true)
    | _ => (0, false)

/-- Forward walking loop of naive_score, mirror of walkBack. -/
def walkNext (scoring : LetterTile → Nat) (t : Table Square) :
    Nat → Placement → Nat × Bool
  | 0, _ => (0, false)
  | fuel + 1, p =>
    let q := p.next
    match t.get q.pos with
    | some (.filled tile) =>
      let r := walkNext scoring t fuel q
      (scoring tile + r.1, true)
    | _ => (0, false)

/-- Cross-word loop of the MultiLetters arm of naive_score: for the current
tile and every entry of others (advancing by step + 1 squares each time), add
the perpendicular word score when a perpendicular neighbour exists. -/
def perpLoop (scoring : LetterTile → Nat) (bonuses : Position → Bonus) (t : Table Square) :
    Placement → LetterTile → List (Nat × LetterTile) → Nat
  | cp, ct, rest =>
    let pb := walkBack scoring t walkFuel ⟨cp.pos, cp.dir.perp⟩
    let pn := walkNext scoring t walkFuel ⟨cp.pos, cp.dir.perp⟩
    let local_score := pb.1 + pn.1
    let has_local_word := pb.2 || pn.2
    let letter_score := scoring ct
    let bonus := bonuses cp.pos
    let contrib := if has_local_word then (local_score + letter_score * bonus.letter) * bonus.word
                   else 0
    match rest with
    | [] => contrib
    | (step, next_tile) :: rest2 =>
      contrib + perpLoop scoring bonuses t
        ⟨cp.pos.setCoord cp.dir (cp.pos.coord cp.dir + step + 1), cp.dir⟩ next_tile rest2

/-- While-loop of the MultiLetters arm that retreats to the true start of the
main word over pre-existing filled tiles, counting the retreat distance. -/
def beginWord (t : Table Square) : Nat → Placement → Nat → Placement × Nat
  | 0, p, step => (p, step)
  | fuel + 1, p, step =>
    match t.get p.back.pos with
    | some (.filled _) => beginWord t fuel p.back (step + 1)
    | _ => (p, step)

/-- Main-word loop of the MultiLetters arm of naive_score: walk forward from
the start of the word; filled board squares contribute their stored value,
empty squares consume the next played tile with its letter bonus and word
multiplier.  Returns (word_score, word_multiplier).  The source's sanity
asserts on the step counter are comments here; they hold on every move the
evaluator builds. -/
def mainLoop (scoring : LetterTile → Nat) (bonuses : Position → Bonus) (t : Table Square) :
    Nat → Placement → Option (LetterTile × Nat) → List (Nat × LetterTile) → Nat × Nat
  | 0, _, _, _ => (0, 1)
  | fuel + 1, cp, next_move_tile, rest =>
    let continue_with := fun (contrib : Nat) (mult : Nat) =>
      let step := match next_move_tile, rest with
        | none, _ => (none, rest)
        | some (tile, s), r =>
          if s = 0 then
            match r with
            | (s2, tile2) :: r2 => (some (tile2, s2), r2)
            | [] => (none, ([] : List (Nat × LetterTile)))
          else
            (some (tile, s - 1), r)
      let r := mainLoop scoring bonuses t fuel cp.next step.1 step.2
      (contrib + r.1, mult * r.2)
    match t.get cp.pos with
    | none => (0, 1)
    | some (.filled tile) =>
      continue_with (scoring tile) 1
    | some .empty =>
      match next_move_tile with
      | none => (0, 1)
      | some (tile, _) =>
        let bonus := bonuses cp.pos
        continue_with (scoring tile * bonus.letter) bonus.word

/-- naive_score from `score.rs`. -/
def naive_score (t : Table Square) (play : Move) (score_rules : ScoreRules) : Nat :=
  let scoring := score_rules.scoring
  let bonuses := score_rules.bonuses
  match play with
  | .singleLetter pos tile =>
    let v_score := (walkBack scoring t walkFuel ⟨pos, .vertical⟩).1
                 + (walkNext scoring t walkFuel ⟨pos, .vertical⟩).1
    let h_score := (walkBack scoring t walkFuel ⟨pos, .horizontal⟩).1
                 + (walkNext scoring t walkFuel ⟨pos, .horizontal⟩).1
    let letter_score := scoring tile
    let bonus := bonuses pos
    (v_score + h_score + 2 * letter_score * bonus.letter) * bonus.word
  | .multiLetters place first others =>
    let perp_score := perpLoop scoring bonuses t place first others
    let bw := beginWord t walkFuel place 0
    let word := mainLoop scoring bonuses t walkFuel bw.1 (some (first, bw.2)) others
    word.1 * word.2 + perp_score + (if others.length = 6 then score_rules.extra_bonus else 0)

/-! ### solver.rs -/

/-- generate_moves_for_word from `solver.rs`, functionally: the mutable
moves vector becomes the returned list (branch A's pushes precede branch
B's), and the push/pop discipline on others becomes snapshot passing.  The
arms that return [] for an empty slice or flag list while the word is
non-empty correspond to out-of-bounds slicing in the source, unreachable
from evaluate; so does the arm where first is none with an empty word (the
source unwraps there). -/
def generate_moves_for_word (current_place : Placement)
    (first : Option (Placement × LetterTile × Nat)) (others : List (Nat × LetterTile))
    (sub_slice : List RestrictedSquare) (word : List Nat) (wi : List Bool)
    (wildcards_missing : Nat → Nat) : List Move :=
  match word with
  | [] =>
    if (List.range 256).any (fun b => wildcards_missing b ≠ 0) then
      []
    else
      match first with
      | none => []
      | some (first_place, first_letter, _) =>
        if others.length = 0 then
          [.singleLetter first_place.pos first_letter]
        else
          [.multiLetters first_place first_letter others]
  | w0 :: word2 =>
    match sub_slice, wi with
    | s0 :: sub_slice2, b0 :: wi2 =>
      let next_place := current_place.next
      match s0 with
      | .empty _ =>
        let extra :=
          if ¬ b0 ∧ wildcards_missing w0 > 0 then
            let wm2 := fun b => if b = w0 then wildcards_missing w0 - 1 else wildcards_missing b
            match first with
            | some (p_first, l_first, n_step) =>
              generate_moves_for_word next_place (some (p_first, l_first, 0))
                (others ++ [(n_step, .wildcard)]) sub_slice2 word2 wi2 wm2
            | none =>
              generate_moves_for_word next_place (some (current_place, .wildcard, 0))
                others sub_slice2 word2 wi2 wm2
          else
            []
        let tile : LetterTile := if b0 then .wildcard else .letter w0
        let main :=
          match first with
          | some (p_first, l_first, n_step) =>
            generate_moves_for_word next_place (some (p_first, l_first, 0))
              (others ++ [(n_step, tile)]) sub_slice2 word2 wi2 wildcards_missing
          | none =>
            generate_moves_for_word next_place (some (current_place, tile, 0))
              others sub_slice2 word2 wi2 wildcards_missing
        extra ++ main
      | .filled _ =>
        let first2 := first.map fun p => (p.1, p.2.1, p.2.2 + 1)
        generate_moves_for_word next_place first2 others sub_slice2 word2 wi2 wildcards_missing
    | _, _ => []

/-- Per-move score computed inside evaluate (`solver.rs` lines 409-419):
naive_score plus an unconditional extra 50 points when a MultiLetters move
plays seven tiles. -/
def score_in_evaluate (t : Table Square) (rules : ScoreRules) (m : Move) : Nat :=
  naive_score t m rules +
    (match m with
     | .multiLetters _ _ others => if 1 + others.length = 7 then 50 else 0
     | _ => 0)

/-- Final stage of evaluate: score every deduplicated move and sort the
(move, score) vector by score (par_sort_unstable_by_key). -/
def evaluate_scores (t : Table Square) (rules : ScoreRules) (moves : List Move) :
    List (Move × Nat) :=
  (moves.map fun m => (m, score_in_evaluate t rules m)).mergeSort
    fun a b => decide (a.2 ≤ b.2)

/-! ### Specification-side notions (formalising the claims' vocabulary) -/

/-- Number of Wildcard tiles contributed by one tile. -/
def tileWildcards : LetterTile → Nat
  | .wildcard => 1
  | .letter _ => 0

/-- Number of Wildcard tiles in an others list. -/
def othersWildcards (l : List (Nat × LetterTile)) : Nat :=
  (l.map fun p => tileWildcards p.2).sum

/-- Number of Wildcard tiles contained in a Move. -/
def moveWildcards : Move → Nat
  | .singleLetter _ tile => tileWildcards tile
  | .multiLetters _ first others => tileWildcards first + othersWildcards others

/-- Number of Wildcard tiles already committed in the first-tile accumulator
of generate_moves_for_word. -/
def firstWildcards : Option (Placement × LetterTile × Nat) → Nat
  | none => 0
  | some (_, tile, _) => tileWildcards tile

/-- Number of word indices that sit on Empty squares and are flagged as
Intersection assignments (these are forced to be played as blanks). -/
def forcedWildcardCount : List RestrictedSquare → List Nat → List Bool → Nat
  | .empty _ :: slice2, _ :: word2, true :: wi2 => 1 + forcedWildcardCount slice2 word2 wi2
  | .empty _ :: slice2, _ :: word2, false :: wi2 => forcedWildcardCount slice2 word2 wi2
  | .filled _ :: slice2, _ :: word2, _ :: wi2 => forcedWildcardCount slice2 word2 wi2
  | _, _, _ => 0

/-- Total of the wildcards_missing counts over the 256 byte values. -/
def missingTotal (wm : Nat → Nat) : Nat :=
  ∑ b ∈ Finset.range 256, wm b

/-- Whether a board tile matches a byte: a board blank matches any byte, a
letter tile only its own byte. -/
def tileMatches : LetterTile → Nat → Prop
  | .wildcard, _ => True
  | .letter l, c => l = c

/-- Pointwise tile-byte matching of two lists (of equal length). -/
def tilesMatch : List LetterTile → List Nat → Prop
  | [], [] => True
  | t :: ts, c :: cs => tileMatches t c ∧ tilesMatch ts cs
  | _, _ => False

/-- A word has exactly the shape pfx ++ [b] ++ sfx, with board blanks in the
runs matching any byte and letter tiles only their own byte. -/
def matchesShape (pfx : List LetterTile) (b : Nat) (sfx : List LetterTile)
    (w : List Nat) : Prop :=
  ∃ u v, w = u ++ b :: v ∧ tilesMatch pfx u ∧ tilesMatch sfx v

/-- Sum of the scores of the leading contiguous run of filled squares in a
list of looked-up board squares. -/
def runScore (scoring : LetterTile → Nat) : List (Option Square) → Nat
  | some (.filled tile) :: rest => scoring tile + runScore scoring rest
  | _ => 0

/-- Board positions strictly before pos along direction d, nearest first. -/
def coordsBefore (d : Direction) (pos : Position) : List Position :=
  (List.range (pos.coord d)).reverse.map fun j => pos.setCoord d j

/-- Board positions strictly after pos along direction d, nearest first,
up to the board edge. -/
def coordsAfter (d : Direction) (pos : Position) : List Position :=
  (List.range' (pos.coord d + 1) (boardSize - (pos.coord d + 1))).map fun j => pos.setCoord d j

/-- Sum of the stored values of the two contiguous runs of filled squares on
either side of pos along direction d (the claim's cross and line sums). -/
def sideRunScore (scoring : LetterTile → Nat) (t : Table Square) (d : Direction)
    (pos : Position) : Nat :=
  runScore scoring ((coordsBefore d pos).map t.get)
    + runScore scoring ((coordsAfter d pos).map t.get)

/-- Table of the regulation 15 × 15 shape (every Board table has it). -/
def isBoard15 (t : Table Square) : Prop :=
  t.squares.length = 15 ∧ ∀ r ∈ t.squares, r.length = 15

/-- Whether an optional restricted square is a Filled square (a lookup past
the end of the line counts as not Filled). -/
def isFilledOpt : Option RestrictedSquare → Bool
  | some (.filled _) => true
  | _ => false

/-! ### Concrete fixtures used by witnesses and counterexamples -/

/-- Value table of an empty board. -/
def emptyValueTable : Table Square := Table.fillWith Square.empty

/-- MultiLetters move playing seven letter-a tiles on row 7, columns 0-6. -/
def bingoMove : Move :=
  .multiLetters ⟨⟨7, 0⟩, .horizontal⟩ (.letter 97)
    [(0, .letter 97), (0, .letter 97), (0, .letter 97),
     (0, .letter 97), (0, .letter 97), (0, .letter 97)]

/-- Letter set holding exactly the bytes of a list (the FromIterator
collect of the source's tests). -/
def lsOf (l : List Nat) : LetterSet :=
  l.foldl (fun acc b => acc.insert b) LetterSet.empty

/-- Restriction line of the word_finder unit test (the tepa example). -/
def testRestrLine : List RestrictedSquare :=
  [.empty (lsOf [97, 98, 100, 102, 103, 104, 107, 108, 109, 111, 112, 113, 115, 116, 120]),
   .empty (lsOf [97, 98, 100, 101, 102, 103, 104, 105, 106, 107, 108, 109, 110, 111, 112,
                 113, 114, 115, 116, 117, 119, 120, 121, 122]),
   .empty (lsOf [97]),
   .empty LetterSet.any, .empty LetterSet.any, .empty LetterSet.any]

/-- Automaton of the word_finder unit test: one of every byte plus one blank
in the tray, min_len 0, multi-meaning blanks enabled. -/
def testAutomaton : ScrabbleAutomata :=
  ⟨testRestrLine, ⟨fun _ => 1, 1, 257⟩, 0, true⟩

/-- Byte string of the word tepa. -/
def testWord : List Nat := [116, 101, 112, 97]

/-- Final automaton state after consuming tepa from the start state. -/
def testFinalState : ScrabbleAutomataState :=
  (foldAccept testAutomaton testWord testAutomaton.start).get (by decide)

/-- Board of the E5 scenario: empty except for an i tile at (4,7); a Q played
at (3,7) sits on a double-letter square and forms the cross-word QI. -/
def e5Table : Table Square :=
  ⟨(List.replicate 15 (List.replicate 15 Square.empty)).set 4
    ((List.replicate 15 Square.empty).set 7 (.filled (.letter 105)))⟩

/-- Line of the restrictionner unit test: a board blank, empties, le, lo, e. -/
def e1Line : List Square :=
  [.filled .wildcard, .empty, .empty, .filled .wildcard,
   .filled (.letter 108), .filled (.letter 101), .empty, .empty, .empty,
   .filled (.letter 108), .filled (.letter 111), .empty, .filled (.letter 101)]

/-- Lexicon of the restrictionner unit test: bles, elle, lore, love. -/
def e1Dict : List (List Nat) :=
  [[98, 108, 101, 115], [101, 108, 108, 101], [108, 111, 114, 101], [108, 111, 118, 101]]

end Scrabble

open Scrabble

/-- C2: the claim asserts bonus_at (7,7) is a ×3 word bonus; the code folds
(7,7) to (0,0), which lands in the row = col arm and yields a ×2 word bonus. -/
theorem c2_centre_counterexample :
    ScrabbleBonus.bonus_at ⟨7, 7⟩ = Bonus.mk 1 2 ∧ (Bonus.mk 1 2).word ≠ 3 := by
  constructor
  · rfl
  · decide

/-- C2 (amended): for the default board-bonus function, bonus_at applied to
the centre position (7,7) returns a times-2 word bonus (letter 1, word 2);
the ×3 word squares are those that fold to (7,0), (0,7) or (7,7), i.e. the
board edge-centres and corners. -/
theorem c2_centre_bonus :
    ScrabbleBonus.bonus_at ⟨7, 7⟩ = Bonus.mk 1 2
      ∧ ScrabbleBonus.bonus_at ⟨0, 0⟩ = Bonus.mk 1 3
      ∧ ScrabbleBonus.bonus_at ⟨0, 7⟩ = Bonus.mk 1 3 := by
  refine ⟨rfl, rfl, rfl⟩

/-- C5: the defensive out-of-range check in bonus_at compares with
`row > BOARD_SIZE` (strictly greater than 15), so the out-of-board row 15 is
not caught and gets an ordinary bonus instead of the u32::MAX sentinel; only
coordinates of 16 and beyond reach the sentinel. -/
theorem c5_out_of_range_off_by_one :
    ScrabbleBonus.bonus_at ⟨15, 0⟩ = Bonus.mk 1 1
      ∧ ScrabbleBonus.bonus_at ⟨0, 15⟩ = Bonus.mk 1 1
      ∧ ScrabbleBonus.bonus_at ⟨16, 0⟩ = Bonus.mk u32Max u32Max := by
  refine ⟨rfl, rfl, rfl⟩

/-- C1: the bingo bonus is applied twice, not once.  On an empty board the
seven-tile move bingoMove has a main-word total of 24 points and no
cross-words; naive_score already adds extra_bonus (the scorer fires when
others.len() = 6) and evaluate then adds an unconditional further 50 when
1 + others.len() = 7, so the score evaluate reports contains the default
50-point bonus two times. -/
theorem c1_bingo_bonus_applied_twice :
    score_in_evaluate emptyValueTable defaultScoreRules bingoMove
        = 24 + defaultScoreRules.extra_bonus + 50
      ∧ naive_score emptyValueTable bingoMove defaultScoreRules
        = 24 + defaultScoreRules.extra_bonus := by
  exact ⟨by decide, by decide⟩

/-- C4: an empty square with no perpendicular neighbours is assigned
LetterSet::any(), the set of all 256 byte values, which is not bitwise-equal
to the ALPHABET constant {a..z}; for instance byte 0 is in the assigned set
but not in ALPHABET. -/
theorem c4_any_is_not_alphabet :
    (find_restrictions [Square.empty] []).get? 0 = some (.empty LetterSet.any)
      ∧ LetterSet.any ≠ LetterSet.ALPHABET
      ∧ LetterSet.any.contains 0 = true
      ∧ LetterSet.ALPHABET.contains 0 = false := by
  refine ⟨by decide, by decide, by decide, by decide⟩

/-- C9: the (Move, score) vector produced by the final stage of evaluate is
sorted in non-decreasing order of score, whatever deduplicated move set the
parallel search handed over. -/
theorem c9_score_vector_sorted (t : Table Square) (rules : ScoreRules) (moves : List Move) :
    (evaluate_scores t rules moves).Pairwise (fun a b => a.2 ≤ b.2) := by
  have h := @List.sorted_mergeSort (Move × Nat) (fun a b => decide (a.2 ≤ b.2))
    (fun a b c hab hbc => by
      simp only [decide_eq_true_eq] at hab hbc ⊢
      exact Nat.le_trans hab hbc)
    (fun a b => by
      simpa using Nat.le_total a.2 b.2)
    (moves.map fun m => (m, score_in_evaluate t rules m))
  exact h.imp fun hab => by simpa using hab

theorem gen_moves_nil_none (cp : Placement) (others : List (Nat × LetterTile))
    (slice : List RestrictedSquare) (wi : List Bool) (wm : Nat → Nat) :
    generate_moves_for_word cp none others slice [] wi wm
      = if ((List.range 256).any fun b => decide (wm b ≠ 0)) = true then [] else [] := by
  rw [generate_moves_for_word]

theorem gen_moves_nil_some (cp fp : Placement) (fl : LetterTile) (n : Nat)
    (others : List (Nat × LetterTile)) (slice : List RestrictedSquare) (wi : List Bool)
    (wm : Nat → Nat) :
    generate_moves_for_word cp (some (fp, fl, n)) others slice [] wi wm
      = if ((List.range 256).any fun b => decide (wm b ≠ 0)) = true then []
        else if others.length = 0 then [.singleLetter fp.pos fl]
        else [.multiLetters fp fl others] := by
  rw [generate_moves_for_word]

theorem gen_moves_slice_nil (cp : Placement) (first : Option (Placement × LetterTile × Nat))
    (others : List (Nat × LetterTile)) (w0 : Nat) (word2 : List Nat) (wi : List Bool)
    (wm : Nat → Nat) :
    generate_moves_for_word cp first others [] (w0 :: word2) wi wm = [] := rfl

theorem gen_moves_wi_nil (cp : Placement) (first : Option (Placement × LetterTile × Nat))
    (others : List (Nat × LetterTile)) (s0 : RestrictedSquare) (slice2 : List RestrictedSquare)
    (w0 : Nat) (word2 : List Nat) (wm : Nat → Nat) :
    generate_moves_for_word cp first others (s0 :: slice2) (w0 :: word2) [] wm = [] := rfl

theorem gen_moves_filled (cp : Placement) (first : Option (Placement × LetterTile × Nat))
    (others : List (Nat × LetterTile)) (t0 : LetterTile) (slice2 : List RestrictedSquare)
    (w0 : Nat) (word2 : List Nat) (b0 : Bool) (wi2 : List Bool) (wm : Nat → Nat) :
    generate_moves_for_word cp first others (.filled t0 :: slice2) (w0 :: word2) (b0 :: wi2) wm
      = generate_moves_for_word cp.next (first.map fun p => (p.1, p.2.1, p.2.2 + 1)) others
          slice2 word2 wi2 wm := rfl

theorem gen_moves_empty (cp : Placement) (first : Option (Placement × LetterTile × Nat))
    (others : List (Nat × LetterTile)) (ls : LetterSet) (slice2 : List RestrictedSquare)
    (w0 : Nat) (word2 : List Nat) (b0 : Bool) (wi2 : List Bool) (wm : Nat → Nat) :
    generate_moves_for_word cp first others (.empty ls :: slice2) (w0 :: word2) (b0 :: wi2) wm
      = (if ¬ b0 ∧ wm w0 > 0 then
          match first with
          | some (p_first, l_first, n_step) =>
            generate_moves_for_word cp.next (some (p_first, l_first, 0))
              (others ++ [(n_step, .wildcard)]) slice2 word2 wi2
              (fun b => if b = w0 then wm w0 - 1 else wm b)
          | none =>
            generate_moves_for_word cp.next (some (cp, .wildcard, 0))
              others slice2 word2 wi2 (fun b => if b = w0 then wm w0 - 1 else wm b)
        else [])
        ++ (match first with
          | some (p_first, l_first, n_step) =>
            generate_moves_for_word cp.next (some (p_first, l_first, 0))
              (others ++ [(n_step, if b0 then .wildcard else .letter w0)]) slice2 word2 wi2 wm
          | none =>
            generate_moves_for_word cp.next
              (some (cp, if b0 then .wildcard else .letter w0, 0))
              others slice2 word2 wi2 wm) := rfl

theorem forced_nil_word (slice : List RestrictedSquare) (wi : List Bool) :
    forcedWildcardCount slice [] wi = 0 := by
  cases slice with
  | nil => rfl
  | cons s slice2 =>
    cases s <;> cases wi <;> rfl

theorem forced_cons_empty (ls : LetterSet) (slice2 : List RestrictedSquare) (w0 : Nat)
    (word2 : List Nat) (b0 : Bool) (wi2 : List Bool) :
    forcedWildcardCount (.empty ls :: slice2) (w0 :: word2) (b0 :: wi2)
      = (if b0 then 1 else 0) + forcedWildcardCount slice2 word2 wi2 := by
  cases b0 <;> simp [forcedWildcardCount]

theorem forced_cons_filled (t0 : LetterTile) (slice2 : List RestrictedSquare) (w0 : Nat)
    (word2 : List Nat) (b0 : Bool) (wi2 : List Bool) :
    forcedWildcardCount (.filled t0 :: slice2) (w0 :: word2) (b0 :: wi2)
      = forcedWildcardCount slice2 word2 wi2 := by
  rfl

theorem missingTotal_eq_zero (wm : Nat → Nat)
    (h : ¬ ((List.range 256).any fun b => wm b ≠ 0) = true) : missingTotal wm = 0 := by
  apply Finset.sum_eq_zero
  intro b hb
  rw [List.any_eq_true] at h
  push_neg at h
  have hb2 : b ∈ List.range 256 := by
    simpa using Finset.mem_range.mp hb
  have := h b hb2
  simpa using this

theorem missingTotal_decrement (wm : Nat → Nat) (w0 : Nat) (h0 : w0 < 256)
    (hpos : 0 < wm w0) :
    missingTotal (fun b => if b = w0 then wm w0 - 1 else wm b) + 1 = missingTotal wm := by
  unfold missingTotal
  have hmem : w0 ∈ Finset.range 256 := Finset.mem_range.mpr h0
  rw [← Finset.add_sum_erase _ wm hmem,
      ← Finset.add_sum_erase _ (fun b => if b = w0 then wm w0 - 1 else wm b) hmem]
  have hcongr : ∑ b ∈ (Finset.range 256).erase w0, (if b = w0 then wm w0 - 1 else wm b)
      = ∑ b ∈ (Finset.range 256).erase w0, wm b :=
    Finset.sum_congr rfl fun b hb => by rw [if_neg (Finset.ne_of_mem_erase hb)]
  rw [hcongr, if_pos rfl]
  omega

theorem othersWildcards_append (l : List (Nat × LetterTile)) (n : Nat) (t : LetterTile) :
    othersWildcards (l ++ [(n, t)]) = othersWildcards l + tileWildcards t := by
  simp [othersWildcards]

theorem firstWildcards_bump (first : Option (Placement × LetterTile × Nat)) :
    firstWildcards (first.map fun p => (p.1, p.2.1, p.2.2 + 1)) = firstWildcards first := by
  cases first with
  | none => rfl
  | some p => rfl

/-- Invariant of generate_moves_for_word: any move it emits carries the
wildcards already committed in the accumulators plus one blank for every
Empty-square Intersection index of the remaining word plus every remaining
missing-letter count. -/
theorem generate_moves_wildcard_count :
    ∀ (word : List Nat) (cp : Placement) (first : Option (Placement × LetterTile × Nat))
      (others : List (Nat × LetterTile)) (slice : List RestrictedSquare) (wi : List Bool)
      (wm : Nat → Nat), (∀ b ∈ word, b < 256) →
      ∀ m ∈ generate_moves_for_word cp first others slice word wi wm,
        moveWildcards m
          = firstWildcards first + othersWildcards others
            + forcedWildcardCount slice word wi + missingTotal wm := by
  intro word
  induction word with
  | nil =>
    intro cp first others slice wi wm _ m hm
    rw [forced_nil_word]
    match first with
    | none =>
      rw [gen_moves_nil_none] at hm
      split at hm <;> simp at hm
    | some (fp, fl, n) =>
      rw [gen_moves_nil_some] at hm
      split at hm
      · simp at hm
      · rename_i hzero
        rw [missingTotal_eq_zero wm hzero]
        split at hm
        · rename_i hlen
          rw [List.mem_singleton] at hm
          subst hm
          rw [List.length_eq_zero] at hlen
          subst hlen
          simp [moveWildcards, firstWildcards, othersWildcards]
        · rw [List.mem_singleton] at hm
          subst hm
          simp [moveWildcards, firstWildcards]
  | cons w0 word2 ih =>
    intro cp first others slice wi wm hbytes m hm
    have hw0 : w0 < 256 := hbytes w0 (List.mem_cons_self _ _)
    have hrest : ∀ b ∈ word2, b < 256 := fun b hb => hbytes b (List.mem_cons_of_mem _ hb)
    match slice, wi with
    | [], _ =>
      rw [gen_moves_slice_nil] at hm
      simp at hm
    | s0 :: slice2, [] =>
      rw [gen_moves_wi_nil] at hm
      simp at hm
    | .filled t0 :: slice2, b0 :: wi2 =>
      rw [gen_moves_filled] at hm
      have := ih cp.next (first.map fun p => (p.1, p.2.1, p.2.2 + 1)) others slice2 wi2 wm
        hrest m hm
      rw [this, firstWildcards_bump, forced_cons_filled]
    | .empty ls :: slice2, b0 :: wi2 =>
      rw [gen_moves_empty, List.mem_append] at hm
      rw [forced_cons_empty]
      rcases hm with hm | hm
      · -- branch A: the extra path that plays a blank for a missing letter
        split at hm
        · rename_i hcond
          obtain ⟨hb0, hpos⟩ := hcond
          have hb0f : b0 = false := by
            cases b0
            · rfl
            · exact absurd rfl hb0
          subst hb0f
          have hdec := missingTotal_decrement wm w0 hw0 hpos
          match first with
          | some (fp, fl, n) =>
            have hima := ih cp.next (some (fp, fl, 0)) (others ++ [(n, .wildcard)]) slice2 wi2
              (fun b => if b = w0 then wm w0 - 1 else wm b) hrest m hm
            rw [hima, othersWildcards_append]
            simp only [firstWildcards, tileWildcards, Bool.false_eq_true, if_false]
            omega
          | none =>
            have hima := ih cp.next (some (cp, .wildcard, 0)) others slice2 wi2
              (fun b => if b = w0 then wm w0 - 1 else wm b) hrest m hm
            rw [hima]
            simp only [firstWildcards, tileWildcards, Bool.false_eq_true, if_false]
            omega
        · simp at hm
      · -- branch B: play the letter itself (or the forced intersection blank)
        match first with
        | some (fp, fl, n) =>
          have himb := ih cp.next (some (fp, fl, 0))
            (others ++ [(n, if b0 then LetterTile.wildcard else LetterTile.letter w0)])
            slice2 wi2 wm hrest m hm
          rw [himb, othersWildcards_append]
          cases b0
          · simp only [firstWildcards, tileWildcards, Bool.false_eq_true, if_false]
            omega
          · simp only [firstWildcards, tileWildcards, if_true]
            omega
        | none =>
          have himb := ih cp.next
            (some (cp, if b0 then LetterTile.wildcard else LetterTile.letter w0, 0))
            others slice2 wi2 wm hrest m hm
          rw [himb]
          cases b0
          · simp only [firstWildcards, tileWildcards, Bool.false_eq_true, if_false]
            omega
          · simp only [firstWildcards, tileWildcards, if_true]
            omega

/-- C7: for calls as evaluate makes them (first = none, empty others), every
move generate_moves_for_word emits contains exactly as many Wildcard tiles as
there are word indices on Empty squares flagged as Intersection plus the
total of the wildcards_missing counts; the byte bound records that word bytes
are u8 values. -/
theorem c7_minimal_wildcards (place : Placement) (slice : List RestrictedSquare)
    (word : List Nat) (wi : List Bool) (wm : Nat → Nat)
    (hbytes : ∀ b ∈ word, b < 256) (m : Move)
    (hm : m ∈ generate_moves_for_word place none [] slice word wi wm) :
    moveWildcards m = forcedWildcardCount slice word wi + missingTotal wm := by
  have h := generate_moves_wildcard_count word place none [] slice wi wm hbytes m hm
  simpa [firstWildcards, othersWildcards] using h

set_option maxRecDepth 4000 in
/-- C7 witness: playing the word aa with one a missing from the tray yields
moves with exactly one blank each; here the move that plays the blank first. -/
theorem c7_minimal_wildcards_witness :
    (Move.multiLetters ⟨⟨7, 0⟩, .horizontal⟩ .wildcard [(0, .letter 97)])
        ∈ generate_moves_for_word ⟨⟨7, 0⟩, .horizontal⟩ none []
            [.empty LetterSet.any, .empty LetterSet.any] [97, 97] [false, false]
            (fun b => if b = 97 then 1 else 0)
      ∧ moveWildcards (Move.multiLetters ⟨⟨7, 0⟩, .horizontal⟩ .wildcard [(0, .letter 97)])
          = forcedWildcardCount [.empty LetterSet.any, .empty LetterSet.any] [97, 97]
              [false, false]
            + missingTotal (fun b => if b = 97 then 1 else 0) := by
  constructor
  · decide
  · exact c7_minimal_wildcards ⟨⟨7, 0⟩, .horizontal⟩
      [.empty LetterSet.any, .empty LetterSet.any] [97, 97] [false, false]
      (fun b => if b = 97 then 1 else 0) (by decide) _ (by decide)

theorem remove_n_total (t : TrayRemaining) (b : Nat) (t2 : TrayRemaining)
    (h : t.remove b = some t2) : t2.n_total = t.n_total - 1 := by
  unfold TrayRemaining.remove at h
  split at h
  · cases h
    rfl
  · cases h

theorem remove_wildcard_n_total (t : TrayRemaining) (t2 : TrayRemaining)
    (h : t.remove_wildcard = some t2) : t2.n_total = t.n_total - 1 := by
  unfold TrayRemaining.remove_wildcard at h
  split at h
  · cases h
    rfl
  · cases h

/-- One successful accept transition advances position by exactly one, never
increases the remaining-tray total, and only ever records the current
position as a new Intersection index. -/
theorem accept_step (a : ScrabbleAutomata) (s s' : ScrabbleAutomataState) (byte : Nat)
    (h : a.accept (some s) byte = some s') :
    s'.position = s.position + 1 ∧ s'.tray.n_total ≤ s.tray.n_total ∧
      ∀ i, WildcardAssignment.intersection i ∈ s'.wildcards.toList →
        WildcardAssignment.intersection i ∈ s.wildcards.toList ∨ i = s.position := by
  cases hline : a.line[s.position]? with
  | none =>
    simp [ScrabbleAutomata.accept, List.get?_eq_getElem?, hline] at h
  | some sq =>
    cases sq with
    | filled tile =>
      cases tile with
      | wildcard =>
        simp only [ScrabbleAutomata.accept, Option.some_bind, List.get?_eq_getElem?,
          hline] at h
        cases h
        exact ⟨rfl, Nat.le_refl _, fun i hi => Or.inl hi⟩
      | letter l =>
        simp only [ScrabbleAutomata.accept, Option.some_bind, List.get?_eq_getElem?,
          hline] at h
        split at h
        · cases h
          exact ⟨rfl, Nat.le_refl _, fun i hi => Or.inl hi⟩
        · cases h
    | empty ls =>
      simp only [ScrabbleAutomata.accept, Option.some_bind, List.get?_eq_getElem?,
        hline] at h
      split at h
      · cases h
      · split at h
        · -- the tray yielded a tile: a new state is produced
          rename_i tray assignment heq
          cases h
          split at heq
          · -- the byte satisfies the cross restriction
            cases hrem : s.tray.remove byte with
            | some t2 =>
              rw [hrem] at heq
              cases heq
              exact ⟨rfl, by have := remove_n_total s.tray byte _ hrem; dsimp only; omega,
                fun i hi => Or.inl hi⟩
            | none =>
              rw [hrem] at heq
              cases hrw : s.tray.remove_wildcard with
              | some t2 =>
                rw [hrw] at heq
                cases heq
                refine ⟨rfl, by have := remove_wildcard_n_total s.tray _ hrw; dsimp only; omega,
                  fun i hi => ?_⟩
                simp only [WildcardAssignmentList.toList, List.mem_cons] at hi
                rcases hi with hi | hi
                · cases hi
                · exact Or.inl hi
              | none =>
                rw [hrw] at heq
                cases heq
          · -- the byte violates the restriction: only a multi-meaning blank works
            split at heq
            · cases hrw : s.tray.remove_wildcard with
              | some t2 =>
                rw [hrw] at heq
                cases heq
                refine ⟨rfl, by have := remove_wildcard_n_total s.tray _ hrw; dsimp only; omega,
                  fun i hi => ?_⟩
                simp only [WildcardAssignmentList.toList, List.mem_cons] at hi
                rcases hi with hi | hi
                · cases hi
                  exact Or.inr rfl
                · exact Or.inl hi
              | none =>
                rw [hrw] at heq
                cases heq
            · cases heq
        · cases h

theorem foldAccept_none (a : ScrabbleAutomata) (w : List Nat) :
    foldAccept a w none = none := by
  induction w with
  | nil => rfl
  | cons b w2 ih =>
    show foldAccept a w2 (a.accept none b) = none
    exact ih

/-- Fold invariant of accept: position advances by the number of consumed
bytes, the tray total never grows, and every newly recorded Intersection
index lies between the initial and final positions. -/
theorem foldAccept_invariant (a : ScrabbleAutomata) (w : List Nat) :
    ∀ (s0 s : ScrabbleAutomataState), foldAccept a w (some s0) = some s →
      s.position = s0.position + w.length ∧ s.tray.n_total ≤ s0.tray.n_total ∧
        ∀ i, WildcardAssignment.intersection i ∈ s.wildcards.toList →
          WildcardAssignment.intersection i ∈ s0.wildcards.toList
            ∨ (s0.position ≤ i ∧ i < s.position) := by
  induction w with
  | nil =>
    intro s0 s h
    cases h
    exact ⟨rfl, Nat.le_refl _, fun i hi => Or.inl hi⟩
  | cons b w2 ih =>
    intro s0 s h
    have hstep : foldAccept a w2 (a.accept (some s0) b) = some s := h
    cases haccept : a.accept (some s0) b with
    | none =>
      rw [haccept, foldAccept_none] at hstep
      cases hstep
    | some s1 =>
      rw [haccept] at hstep
      obtain ⟨hp1, ht1, hw1⟩ := accept_step a s0 s1 b haccept
      obtain ⟨hp2, ht2, hw2⟩ := ih s1 s hstep
      refine ⟨by simp [hp2, hp1]; omega, Nat.le_trans ht2 ht1, fun i hi => ?_⟩
      rcases hw2 i hi with hi1 | hi1
      · rcases hw1 i hi1 with hi2 | hi2
        · exact Or.inl hi2
        · refine Or.inr ⟨Nat.le_of_eq hi2.symm, ?_⟩
          omega
      · refine Or.inr ⟨?_, hi1.2⟩
        omega

/-- C10: from the start state, consuming k bytes leaves position exactly k
and a tray total never above the starting total, so an accepted word's final
state has position equal to the word length and every recorded
Intersection(i) has i below the word length; moreover each single successful
accept step advances position by exactly one without growing the tray. -/
theorem c10_accept_position_invariant (a : ScrabbleAutomata) (w : List Nat)
    (s : ScrabbleAutomataState) (h : foldAccept a w a.start = some s) :
    (s.position = w.length ∧ s.tray.n_total ≤ a.tray.n_total
      ∧ ∀ i, WildcardAssignment.intersection i ∈ s.wildcards.toList → i < w.length)
    ∧ ∀ (st st2 : ScrabbleAutomataState) (byte : Nat), a.accept (some st) byte = some st2 →
        st2.position = st.position + 1 ∧ st2.tray.n_total ≤ st.tray.n_total := by
  constructor
  · obtain ⟨hp, ht, hw⟩ := foldAccept_invariant a w ⟨0, .empty, a.tray⟩ s h
    have hp2 : s.position = w.length := by simpa using hp
    refine ⟨hp2, ht, fun i hi => ?_⟩
    rcases hw i hi with hi1 | hi1
    · simp [WildcardAssignmentList.toList] at hi1
    · have h2 := hi1.2
      omega
  · intro st st2 byte hstep
    obtain ⟨h1, h2, _⟩ := accept_step a st st2 byte hstep
    exact ⟨h1, h2⟩

/-- C10 witness: the accepted run of tepa on the unit-test automaton ends at
position 4 with four tiles consumed from the 257-tile tray. -/
theorem c10_accept_position_invariant_witness :
    testFinalState.position = testWord.length
      ∧ testFinalState.tray.n_total ≤ testAutomaton.tray.n_total := by
  have hs : (foldAccept testAutomaton testWord testAutomaton.start).isSome = true := by decide
  have h := c10_accept_position_invariant testAutomaton testWord testFinalState
    (Option.some_get hs).symm
  exact ⟨h.1.1, h.1.2.1⟩

/-- C6: for every reachable state s, is_match is true exactly when the line
square at s.position is not Filled (an index past the line counting as not
Filled), at least one tile has been consumed from the tray, and the position
has reached min_len. -/
theorem c6_is_match_iff (a : ScrabbleAutomata) (w : List Nat)
    (s : ScrabbleAutomataState) (h : foldAccept a w a.start = some s) :
    (a.is_match (some s) = true ↔
      (isFilledOpt (a.line.get? s.position) = false
        ∧ s.tray.n_total < a.tray.n_total
        ∧ a.min_len ≤ s.position)) := by
  have htot : s.tray.n_total ≤ a.tray.n_total :=
    (foldAccept_invariant a w ⟨0, .empty, a.tray⟩ s h).2.1
  cases hline : a.line.get? s.position with
  | none =>
    simp only [ScrabbleAutomata.is_match, isFilledOpt, hline]
    constructor
    · intro hmatch
      split at hmatch
      · cases hmatch
      · split at hmatch
        · cases hmatch
        · rename_i h1 h2
          exact ⟨by trivial, by omega, by omega⟩
    · rintro ⟨-, hlt, hlen⟩
      rw [if_neg (by omega : ¬ a.tray.n_total = s.tray.n_total),
          if_neg (by omega : ¬ s.position < a.min_len)]
  | some sq =>
    cases sq with
    | filled tile =>
      simp only [ScrabbleAutomata.is_match, isFilledOpt, hline]
      simp
    | empty ls =>
      simp only [ScrabbleAutomata.is_match, isFilledOpt, hline]
      constructor
      · intro hmatch
        split at hmatch
        · cases hmatch
        · split at hmatch
          · cases hmatch
          · rename_i h1 h2
            exact ⟨by trivial, by omega, by omega⟩
      · rintro ⟨-, hlt, hlen⟩
        rw [if_neg (by omega : ¬ a.tray.n_total = s.tray.n_total),
            if_neg (by omega : ¬ s.position < a.min_len)]

set_option maxRecDepth 4000 in
/-- C6 witness: the final state of the accepted tepa run is a match, by the
three-part characterisation (line square not Filled, tiles consumed,
position past min_len). -/
theorem c6_is_match_iff_witness :
    testAutomaton.is_match (some testFinalState) = true := by
  have hs : (foldAccept testAutomaton testWord testAutomaton.start).isSome = true := by decide
  exact (c6_is_match_iff testAutomaton testWord testFinalState
    (Option.some_get hs).symm).mpr ⟨by decide, by decide, by decide⟩

/-- C4 (amended): every empty square whose perpendicular prefix and suffix
runs are both empty is assigned Empty(LetterSet::any()), the full 256-bit
set; that set is not bitwise-equal to the {a..z} constant ALPHABET (see the
counterexample theorem). -/
theorem c4_no_neighbour_square_gets_any (line : List Square) (dict : List (List Nat))
    (i : Nat) (hsq : line.get? i = some .empty) (hpfx : pfxAt line i = [])
    (hsfx : sfxAt line i = []) :
    (find_restrictions line dict).get? i = some (.empty LetterSet.any) := by
  have hi : i < line.length := by
    by_contra hc
    rw [List.get?_eq_none.mpr (by omega)] at hsq
    cases hsq
  unfold find_restrictions
  rw [List.get?_map, List.get?_range hi]
  simp only [Option.map_some']
  rw [hsq]
  simp [hpfx, hsfx]

/-- C4 witness: a one-square line with an empty square and no neighbours. -/
theorem c4_no_neighbour_square_gets_any_witness :
    (find_restrictions [Square.empty] []).get? 0 = some (.empty LetterSet.any) :=
  c4_no_neighbour_square_gets_any [Square.empty] [] 0 (by decide) (by decide) (by decide)

theorem coord_setCoord_self (p : Position) (d : Direction) (v : Nat) :
    (p.setCoord d v).coord d = v := by
  cases d <;> rfl

theorem setCoord_setCoord (p : Position) (d : Direction) (v w : Nat) :
    (p.setCoord d v).setCoord d w = p.setCoord d w := by
  cases d <;> rfl

theorem setCoord_self (p : Position) (d : Direction) :
    p.setCoord d (p.coord d) = p := by
  cases d <;> rfl

theorem tableGet_none (t : Table Square) (ht : isBoard15 t) (pos : Position) (d : Direction)
    (h : 15 ≤ pos.coord d) : t.get pos = none := by
  cases d with
  | vertical =>
    unfold Table.get
    rw [List.get?_eq_none.mpr (by rw [ht.1]; exact h)]
    rfl
  | horizontal =>
    unfold Table.get
    cases hrow : t.squares.get? pos.row with
    | none => rfl
    | some r =>
      have hr : r ∈ t.squares := List.get?_mem hrow
      simp only [Option.some_bind]
      exact List.get?_eq_none.mpr (by rw [ht.2 r hr]; exact h)

theorem walkBack_runScore (scoring : LetterTile → Nat) (t : Table Square)
    (ht : isBoard15 t) (d : Direction) :
    ∀ (c fuel : Nat) (p : Position), c < fuel →
      (walkBack scoring t fuel ⟨p.setCoord d c, d⟩).1
        = runScore scoring
            (((List.range c).reverse.map fun j => p.setCoord d j).map t.get) := by
  intro c
  induction c with
  | zero =>
    intro fuel p hfuel
    match fuel, hfuel with
    | fuel + 1, _ =>
      show (match t.get (Placement.back ⟨p.setCoord d 0, d⟩).pos with
        | some (.filled tile) => (scoring tile
            + (walkBack scoring t fuel (Placement.back ⟨p.setCoord d 0, d⟩)).1, true)
        | _ => ((0 : Nat), false)).1 = _
      have hback : (Placement.back ⟨p.setCoord d 0, d⟩).pos = p.setCoord d usizeMax := by
        simp [Placement.back, coord_setCoord_self, setCoord_setCoord]
      rw [hback, tableGet_none t ht _ d
        (by rw [coord_setCoord_self]; unfold usizeMax; omega)]
      rfl
  | succ c ih =>
    intro fuel p hfuel
    match fuel, hfuel with
    | fuel + 1, _ =>
      have hback : (Placement.back ⟨p.setCoord d (c + 1), d⟩) = ⟨p.setCoord d c, d⟩ := by
        simp [Placement.back, coord_setCoord_self, setCoord_setCoord]
      show (match t.get (Placement.back ⟨p.setCoord d (c + 1), d⟩).pos with
        | some (.filled tile) => (scoring tile
            + (walkBack scoring t fuel (Placement.back ⟨p.setCoord d (c + 1), d⟩)).1, true)
        | _ => ((0 : Nat), false)).1 = _
      rw [hback]
      rw [List.range_succ, List.reverse_append]
      simp only [List.reverse_cons, List.reverse_nil, List.nil_append, List.singleton_append,
        List.map_cons]
      cases hsq : t.get (p.setCoord d c) with
      | none => rfl
      | some sq =>
        cases sq with
        | empty => rfl
        | filled tile =>
          show scoring tile + (walkBack scoring t fuel ⟨p.setCoord d c, d⟩).1 = _
          rw [ih fuel p (by omega)]
          rfl

theorem walkNext_runScore (scoring : LetterTile → Nat) (t : Table Square)
    (ht : isBoard15 t) (d : Direction) :
    ∀ (fuel c : Nat) (p : Position), 15 ≤ c + fuel →
      (walkNext scoring t fuel ⟨p.setCoord d c, d⟩).1
        = runScore scoring
            (((List.range' (c + 1) (boardSize - (c + 1))).map fun j => p.setCoord d j).map
              t.get) := by
  intro fuel
  induction fuel with
  | zero =>
    intro c p h
    have hz : boardSize - (c + 1) = 0 := by unfold boardSize; omega
    rw [hz]
    rfl
  | succ fuel ih =>
    intro c p h
    show (match t.get (Placement.next ⟨p.setCoord d c, d⟩).pos with
      | some (.filled tile) => (scoring tile
          + (walkNext scoring t fuel (Placement.next ⟨p.setCoord d c, d⟩)).1, true)
      | _ => ((0 : Nat), false)).1 = _
    by_cases hc : c + 1 < 15
    · have hnext : (Placement.next ⟨p.setCoord d c, d⟩) = ⟨p.setCoord d (c + 1), d⟩ := by
        simp only [Placement.next, coord_setCoord_self, setCoord_setCoord]
        rw [min_eq_left (by unfold usizeMax; omega)]
      rw [hnext]
      have hlen : boardSize - (c + 1) = (boardSize - (c + 2)) + 1 := by unfold boardSize; omega
      rw [hlen, List.range'_succ]
      simp only [List.map_cons]
      cases hsq : t.get (p.setCoord d (c + 1)) with
      | none => rfl
      | some sq =>
        cases sq with
        | empty => rfl
        | filled tile =>
          show scoring tile + (walkNext scoring t fuel ⟨p.setCoord d (c + 1), d⟩).1 = _
          rw [ih (c + 1) p (by omega)]
          rfl
    · have hco : (Placement.next ⟨p.setCoord d c, d⟩).pos.coord d ≥ 15 := by
        simp only [Placement.next, coord_setCoord_self]
        exact le_min (by omega) (by unfold usizeMax; omega)
      rw [tableGet_none t ht _ d hco]
      have hz : boardSize - (c + 1) = 0 := by unfold boardSize; omega
      rw [hz]
      rfl

/-- C8: for every 15 × 15 value table, in-board position, tile and rule set,
the SingleLetter arm of naive_score equals
(cross_run + line_run + 2·L·b.letter) · b.word, where the runs are the sums
of stored values of the contiguous filled squares above/below and
left/right of the position; the E5 instance (Q on a double-letter square
forming QI) evaluates to 41. -/
theorem c8_single_letter_score :
    (∀ (t : Table Square) (pos : Position) (tile : LetterTile) (rules : ScoreRules),
        isBoard15 t → pos.row < 15 → pos.col < 15 →
        naive_score t (.singleLetter pos tile) rules
          = (sideRunScore rules.scoring t .vertical pos
              + sideRunScore rules.scoring t .horizontal pos
              + 2 * rules.scoring tile * (rules.bonuses pos).letter)
            * (rules.bonuses pos).word)
      ∧ naive_score e5Table (.singleLetter ⟨3, 7⟩ (.letter 113)) defaultScoreRules = 41 := by
  constructor
  · intro t pos tile rules ht hrow hcol
    have hvb := walkBack_runScore rules.scoring t ht .vertical pos.row walkFuel pos
      (by unfold walkFuel; omega)
    have hvn := walkNext_runScore rules.scoring t ht .vertical walkFuel pos.row pos
      (by unfold walkFuel; omega)
    have hhb := walkBack_runScore rules.scoring t ht .horizontal pos.col walkFuel pos
      (by unfold walkFuel; omega)
    have hhn := walkNext_runScore rules.scoring t ht .horizontal walkFuel pos.col pos
      (by unfold walkFuel; omega)
    rw [show pos.setCoord Direction.vertical pos.row = pos from rfl] at hvb hvn
    rw [show pos.setCoord Direction.horizontal pos.col = pos from rfl] at hhb hhn
    simp only [naive_score]
    rw [hvb, hvn, hhb, hhn]
    simp only [sideRunScore, coordsBefore, coordsAfter, Position.coord]
  · decide

/-- C8 witness: instance of the formula at the E5 board and move. -/
theorem c8_single_letter_score_witness :
    naive_score e5Table (.singleLetter ⟨3, 7⟩ (.letter 113)) defaultScoreRules
      = (sideRunScore defaultScoreRules.scoring e5Table .vertical ⟨3, 7⟩
          + sideRunScore defaultScoreRules.scoring e5Table .horizontal ⟨3, 7⟩
          + 2 * defaultScoreRules.scoring (.letter 113)
              * (defaultScoreRules.bonuses ⟨3, 7⟩).letter)
        * (defaultScoreRules.bonuses ⟨3, 7⟩).word :=
  c8_single_letter_score.1 e5Table ⟨3, 7⟩ (.letter 113) defaultScoreRules
    ⟨by decide, by decide⟩ (by decide) (by decide)

theorem tilesMatch_nil_left (cs : List Nat) : tilesMatch [] cs ↔ cs = [] := by
  cases cs
  · simp [tilesMatch]
  · simp [tilesMatch]

theorem tilesMatch_cons_nil (t : LetterTile) (ts : List LetterTile) :
    tilesMatch (t :: ts) [] ↔ False := Iff.rfl

theorem tilesMatch_cons_cons (t : LetterTile) (ts : List LetterTile) (c : Nat)
    (cs : List Nat) :
    tilesMatch (t :: ts) (c :: cs) ↔ tileMatches t c ∧ tilesMatch ts cs := Iff.rfl

theorem rcFold_none (pfx sfx : List LetterTile) (w : List Nat) :
    List.foldl (rcAccept pfx sfx) none w = none := by
  induction w with
  | nil => rfl
  | cons c w2 ih =>
    rw [List.foldl_cons]
    exact ih

theorem rcFold_done (pfx sfx : List LetterTile) (w : List Nat) (l b : Nat) :
    List.foldl (rcAccept pfx sfx) (some (.done l)) w = some (.done b) ↔ (w = [] ∧ b = l) := by
  cases w with
  | nil =>
    simp only [List.foldl_nil]
    constructor
    · intro h
      cases h
      exact ⟨by trivial, by trivial⟩
    · rintro ⟨-, rfl⟩
      rfl
  | cons c w2 =>
    rw [List.foldl_cons]
    have hstep : rcAccept pfx sfx (some (.done l)) c = none := rfl
    rw [hstep, rcFold_none]
    simp

theorem rcFold_sfx (pfx sfx : List LetterTile) :
    ∀ (w : List Nat) (i l b : Nat), i < sfx.length →
      (List.foldl (rcAccept pfx sfx) (some (.sfxS i l)) w = some (.done b) ↔
        (b = l ∧ tilesMatch (sfx.drop i) w)) := by
  intro w
  induction w with
  | nil =>
    intro i l b hi
    rw [List.drop_eq_getElem_cons hi]
    simp only [List.foldl_nil]
    constructor
    · intro h
      cases h
    · rintro ⟨-, hmatch⟩
      exact ((tilesMatch_cons_nil _ _).mp hmatch).elim
  | cons c w2 ih =>
    intro i l b hi
    rw [List.foldl_cons, List.drop_eq_getElem_cons hi]
    have hget : sfx[i]? = some sfx[i] := List.getElem?_eq_getElem hi
    cases ht : sfx[i] with
    | wildcard =>
      have hstep : rcAccept pfx sfx (some (.sfxS i l)) c
          = some (if i + 1 = sfx.length then .done l else .sfxS (i + 1) l) := by
        simp [rcAccept, hget, ht]
      rw [hstep]
      by_cases hlen : i + 1 = sfx.length
      · rw [if_pos hlen, rcFold_done]
        have hdrop : sfx.drop (i + 1) = [] := List.drop_eq_nil_of_le (by omega)
        rw [hdrop, tilesMatch_cons_cons]
        simp [tileMatches, tilesMatch_nil_left]
        tauto
      · rw [if_neg hlen, ih (i + 1) l b (by omega), tilesMatch_cons_cons]
        simp [tileMatches]
    | letter l2 =>
      by_cases hl2 : l2 = c
      · have hstep : rcAccept pfx sfx (some (.sfxS i l)) c
            = some (if i + 1 = sfx.length then .done l else .sfxS (i + 1) l) := by
          simp [rcAccept, hget, ht, hl2]
        rw [hstep]
        by_cases hlen : i + 1 = sfx.length
        · rw [if_pos hlen, rcFold_done]
          have hdrop : sfx.drop (i + 1) = [] := List.drop_eq_nil_of_le (by omega)
          rw [hdrop, tilesMatch_cons_cons]
          simp [tileMatches, tilesMatch_nil_left, hl2]
          tauto
        · rw [if_neg hlen, ih (i + 1) l b (by omega), tilesMatch_cons_cons]
          simp [tileMatches, hl2]
      · have hstep : rcAccept pfx sfx (some (.sfxS i l)) c = none := by
          simp [rcAccept, hget, ht, hl2]
        rw [hstep, rcFold_none, tilesMatch_cons_cons]
        simp [tileMatches, hl2]

theorem rcFold_mid (pfx sfx : List LetterTile) (w : List Nat) (b : Nat) :
    List.foldl (rcAccept pfx sfx) (some .mid) w = some (.done b) ↔
      ∃ v, w = b :: v ∧ tilesMatch sfx v := by
  cases w with
  | nil =>
    simp only [List.foldl_nil]
    constructor
    · intro h
      cases h
    · rintro ⟨v, hv, -⟩
      cases hv
  | cons c w2 =>
    rw [List.foldl_cons]
    have hstep : rcAccept pfx sfx (some .mid) c
        = some (if sfx.length = 0 then .done c else .sfxS 0 c) := by
      simp [rcAccept]
    rw [hstep]
    by_cases hlen : sfx.length = 0
    · rw [if_pos hlen, rcFold_done]
      have hsfx : sfx = [] := List.length_eq_zero.mp hlen
      subst hsfx
      constructor
      · rintro ⟨rfl, rfl⟩
        exact ⟨[], rfl, trivial⟩
      · rintro ⟨v, hv, hm⟩
        rw [tilesMatch_nil_left] at hm
        subst hm
        cases hv
        exact ⟨by trivial, by trivial⟩
    · rw [if_neg hlen, rcFold_sfx pfx sfx w2 0 c b (by omega), List.drop_zero]
      constructor
      · rintro ⟨rfl, hm⟩
        exact ⟨w2, rfl, hm⟩
      · rintro ⟨v, hv, hm⟩
        cases hv
        exact ⟨rfl, hm⟩

theorem rcFold_pfx (pfx sfx : List LetterTile) :
    ∀ (w : List Nat) (i b : Nat), i < pfx.length →
      (List.foldl (rcAccept pfx sfx) (some (.pfxS i)) w = some (.done b) ↔
        ∃ u v, w = u ++ b :: v ∧ tilesMatch (pfx.drop i) u ∧ tilesMatch sfx v) := by
  intro w
  induction w with
  | nil =>
    intro i b hi
    rw [List.drop_eq_getElem_cons hi]
    simp only [List.foldl_nil]
    constructor
    · intro h
      cases h
    · rintro ⟨u, v, huv, hu, hv⟩
      cases u with
      | nil => exact ((tilesMatch_cons_nil _ _).mp hu).elim
      | cons x u2 => cases huv
  | cons c w2 ih =>
    intro i b hi
    rw [List.foldl_cons, List.drop_eq_getElem_cons hi]
    have hget : pfx[i]? = some pfx[i] := List.getElem?_eq_getElem hi
    cases ht : pfx[i] with
    | wildcard =>
      have hstep : rcAccept pfx sfx (some (.pfxS i)) c
          = some (if i + 1 = pfx.length then .mid else .pfxS (i + 1)) := by
        simp [rcAccept, hget, ht]
      rw [hstep]
      by_cases hlen : i + 1 = pfx.length
      · rw [if_pos hlen, rcFold_mid]
        have hdrop : pfx.drop (i + 1) = [] := List.drop_eq_nil_of_le (by omega)
        rw [hdrop]
        constructor
        · rintro ⟨v, rfl, hv⟩
          exact ⟨[c], v, rfl, ⟨trivial, trivial⟩, hv⟩
        · rintro ⟨u, v, huv, hu, hv⟩
          cases u with
          | nil => exact ((tilesMatch_cons_nil _ _).mp hu).elim
          | cons x u2 =>
            obtain ⟨hx, hu2⟩ := (tilesMatch_cons_cons _ _ _ _).mp hu
            rw [tilesMatch_nil_left] at hu2
            subst hu2
            cases huv
            exact ⟨v, rfl, hv⟩
      · rw [if_neg hlen, ih (i + 1) b (by omega)]
        constructor
        · rintro ⟨u, v, rfl, hu, hv⟩
          exact ⟨c :: u, v, rfl, ⟨trivial, hu⟩, hv⟩
        · rintro ⟨u, v, huv, hu, hv⟩
          cases u with
          | nil => exact ((tilesMatch_cons_nil _ _).mp hu).elim
          | cons x u2 =>
            obtain ⟨hx, hu2⟩ := (tilesMatch_cons_cons _ _ _ _).mp hu
            cases huv
            exact ⟨u2, v, rfl, hu2, hv⟩
    | letter l2 =>
      by_cases hl2 : l2 = c
      · have hstep : rcAccept pfx sfx (some (.pfxS i)) c
            = some (if i + 1 = pfx.length then .mid else .pfxS (i + 1)) := by
          simp [rcAccept, hget, ht, hl2]
        rw [hstep]
        by_cases hlen : i + 1 = pfx.length
        · rw [if_pos hlen, rcFold_mid]
          have hdrop : pfx.drop (i + 1) = [] := List.drop_eq_nil_of_le (by omega)
          rw [hdrop]
          constructor
          · rintro ⟨v, rfl, hv⟩
            exact ⟨[c], v, rfl, ⟨hl2, trivial⟩, hv⟩
          · rintro ⟨u, v, huv, hu, hv⟩
            cases u with
            | nil => exact ((tilesMatch_cons_nil _ _).mp hu).elim
            | cons x u2 =>
              obtain ⟨hx, hu2⟩ := (tilesMatch_cons_cons _ _ _ _).mp hu
              rw [tilesMatch_nil_left] at hu2
              subst hu2
              cases huv
              exact ⟨v, rfl, hv⟩
        · rw [if_neg hlen, ih (i + 1) b (by omega)]
          constructor
          · rintro ⟨u, v, rfl, hu, hv⟩
            exact ⟨c :: u, v, rfl, ⟨hl2, hu⟩, hv⟩
          · rintro ⟨u, v, huv, hu, hv⟩
            cases u with
            | nil => exact ((tilesMatch_cons_nil _ _).mp hu).elim
            | cons x u2 =>
              obtain ⟨hx, hu2⟩ := (tilesMatch_cons_cons _ _ _ _).mp hu
              cases huv
              exact ⟨u2, v, rfl, hu2, hv⟩
      · have hstep : rcAccept pfx sfx (some (.pfxS i)) c = none := by
          simp [rcAccept, hget, ht, hl2]
        rw [hstep, rcFold_none]
        constructor
        · intro h
          cases h
        · rintro ⟨u, v, huv, hu, hv⟩
          cases u with
          | nil => exact ((tilesMatch_cons_nil _ _).mp hu).elim
          | cons x u2 =>
            obtain ⟨hx, hu2⟩ := (tilesMatch_cons_cons _ _ _ _).mp hu
            cases huv
            exact absurd hx hl2

theorem rcRun_done_iff (pfx sfx : List LetterTile) (w : List Nat) (b : Nat) :
    rcRun pfx sfx w = some (.done b) ↔ matchesShape pfx b sfx w := by
  unfold rcRun rcStart matchesShape
  by_cases hlen : pfx.length = 0
  · rw [if_pos hlen, rcFold_mid]
    have hp : pfx = [] := List.length_eq_zero.mp hlen
    subst hp
    constructor
    · rintro ⟨v, rfl, hv⟩
      exact ⟨[], v, rfl, trivial, hv⟩
    · rintro ⟨u, v, huv, hu, hv⟩
      rw [tilesMatch_nil_left] at hu
      subst hu
      exact ⟨v, huv, hv⟩
  · rw [if_neg hlen, rcFold_pfx pfx sfx w 0 b (by omega), List.drop_zero]

theorem contains_insert (s : LetterSet) (l b : Nat) :
    (s.insert l).contains b = (s.contains b || decide (l = b)) := by
  simp [LetterSet.insert, LetterSet.contains, Nat.testBit_or, Nat.one_shiftLeft,
    Nat.testBit_two_pow]

theorem contains_empty (b : Nat) : LetterSet.empty.contains b = false := by
  simp [LetterSet.empty, LetterSet.contains]

theorem contains_restrictionSet_fold (dict : List (List Nat)) (pfx sfx : List LetterTile)
    (b : Nat) :
    ∀ (acc : LetterSet),
      ((dict.foldl
        (fun acc w =>
          match rcRun pfx sfx w with
          | some (.done l) => acc.insert l
          | _ => acc) acc).contains b = true
        ↔ (acc.contains b = true ∨ ∃ w ∈ dict, rcRun pfx sfx w = some (.done b))) := by
  induction dict with
  | nil =>
    intro acc
    simp
  | cons w0 dict2 ih =>
    intro acc
    rw [List.foldl_cons, ih]
    rw [List.exists_mem_cons_iff]
    cases hrun : rcRun pfx sfx w0 with
    | none =>
      simp [hrun]
    | some st =>
      cases st with
      | done l =>
        rw [contains_insert]
        simp only [hrun, Bool.or_eq_true, decide_eq_true_eq, Option.some.injEq,
          RCState.done.injEq]
        tauto
      | pfxS i => simp [hrun]
      | mid => simp [hrun]
      | sfxS i l => simp [hrun]

theorem contains_restrictionSet (dict : List (List Nat)) (pfx sfx : List LetterTile)
    (b : Nat) :
    (restrictionSet dict pfx sfx).contains b = true ↔
      ∃ w ∈ dict, rcRun pfx sfx w = some (.done b) := by
  unfold restrictionSet
  rw [contains_restrictionSet_fold]
  rw [contains_empty]
  simp

/-- C3: in a constraint line built by find_restrictions, any empty square
whose perpendicular prefix and suffix runs are not both empty carries
exactly the set of bytes b for which some lexicon word has the shape
prefix ++ [b] ++ suffix, a board blank matching any byte and a letter tile
only its own byte. -/
theorem c3_cross_constraint_sound (line : List Square) (dict : List (List Nat)) (i : Nat)
    (s : LetterSet) (hentry : (find_restrictions line dict).get? i = some (.empty s))
    (hruns : ¬ (pfxAt line i = [] ∧ sfxAt line i = [])) (b : Nat) :
    s.contains b = true ↔ ∃ w ∈ dict, matchesShape (pfxAt line i) b (sfxAt line i) w := by
  have hi : i < line.length := by
    by_contra hc
    unfold find_restrictions at hentry
    rw [List.get?_map, List.get?_eq_none.mpr (by simp; omega)] at hentry
    cases hentry
  unfold find_restrictions at hentry
  rw [List.get?_map, List.get?_range hi, Option.map_some'] at hentry
  cases hsq : line.get? i with
  | none =>
    rw [List.get?_eq_none] at hsq
    omega
  | some sq =>
    cases sq with
    | filled t =>
      simp only [hsq] at hentry
      cases hentry
    | empty =>
      simp only [hsq, Option.some.injEq, RestrictedSquare.empty.injEq] at hentry
      have hcond : ¬ ((pfxAt line i).isEmpty = true ∧ (sfxAt line i).isEmpty = true) := by
        simp only [List.isEmpty_iff]
        exact hruns
      rw [if_neg hcond] at hentry
      subst hentry
      rw [contains_restrictionSet]
      exact exists_congr fun w => and_congr_right fun _ =>
        rcRun_done_iff (pfxAt line i) (sfxAt line i) w b

set_option maxRecDepth 8000 in
/-- C3 witness: in the restrictionner unit test, column 11 (between lo and e)
carries the set {r, v}; r = byte 114 is in it, witnessed by the word lore. -/
theorem c3_cross_constraint_sound_witness :
    (⟨2 ^ 114 + 2 ^ 118⟩ : LetterSet).contains 114 = true :=
  (c3_cross_constraint_sound e1Line e1Dict 11 ⟨2 ^ 114 + 2 ^ 118⟩ (by decide) (by decide)
    114).mpr
    ⟨[108, 111, 114, 101], by decide,
     [108, 111], [101], by decide, ⟨rfl, rfl, trivial⟩, ⟨rfl, trivial⟩⟩
